import Mathlib

/-!
Verification of the systematics-masking and design-matrix pipeline of
`linea/core.py` (classes `CheopsLightCurve` and `JointLightCurve`).

Numeric vectors are embedded as `List ℚ`; the boolean quality mask as
`List Bool` (`true` = excluded).  Python float modulo is embedded as the
floor-based mathematical modulo.  Entries that numpy would poison with NaN
(division by a zero range in `normalize`) are represented as `none` in
`Option ℚ`.  The transcendental scalar functions `np.sin`, `np.cos` and
`np.radians` are abstracted as function parameters: every statement proved
below holds for all instantiations of them, in particular for the real
sine/cosine/degree-conversion used by the source.
-/

namespace Linea

/-- Python/numpy float modulo `a % b` whose sign follows the divisor:
`a - b * ⌊a / b⌋`.  (For `b > 0` this is true mathematical modulo.) -/
def pymod (a b : ℚ) : ℚ := a - b * ⌊a / b⌋

/-- Embeds `CheopsLightCurve.phase` (core.py lines 495-510) at one time
sample: `((bjd_time - t0) % per) / per`. -/
def phase (t t0 per : ℚ) : ℚ := pymod (t - t0) per / per

/-- Embeds the phase folding used inside `mask_planetary_signal`
(core.py line 375/378): `phs = ((bjd_time - t0) / per) % 1`. -/
def foldPhase (t t0 per : ℚ) : ℚ := pymod ((t - t0) / per) 1

/-- Embeds the branch-cut remap `phs[phs > cut] -= 1` at one sample. -/
def remapCut (cut p : ℚ) : ℚ := if cut < p then p - 1 else p

/-- Embeds the phase computation of `CheopsLightCurve.plot_phase_curve`
(core.py lines 452-454): `((t - t0 - t0_offset) % per) / per`, then values
greater than `0.95` are decremented by one. -/
def plotPhase (t t0 off per : ℚ) : ℚ :=
  remapCut (19/20) (pymod (t - t0 - off) per / per)

/-- Embeds one element of `msk2` in `mask_planetary_signal`
(core.py line 382): the sample is at least `t14` away (in time) from both
the transit center and the eclipse center,
`(np.abs(phs1*per) >= t14) & (np.abs(phs2*per) >= t14)` where `phs1`/`phs2`
are the folded phases around `t0` and `t0 + per/2` after the `0.5` cut. -/
def outsideBoth (t per t0 t14 : ℚ) : Bool :=
  decide (t14 ≤ |remapCut (1/2) (foldPhase t t0 per) * per|) &&
  decide (t14 ≤ |remapCut (1/2) (foldPhase t (t0 + per/2) per) * per|)

/-- Embeds the mask update of `CheopsLightCurve.mask_planetary_signal`
(core.py lines 374-383): `self.mask |= ~msk2`.  The half-duration `t14` is
computed in the source from the planet parameters by the impact-parameter
geometry formula `t14 = (per/π)·arcsin((1/a)·√(((1+rp)² - (a·cos i)²)/(1 -
cos² i)))`; being transcendental it enters the embedding as the parameter
`t14`, so the statements below hold for every value the formula can take. -/
def mask_planetary_signal (mask : List Bool) (bjd : List ℚ)
    (per t0 t14 : ℚ) : List Bool :=
  List.zipWith (· || ·) mask (bjd.map fun t => !(outsideBoth t per t0 t14))

/-- Embeds numpy `v.min()` for the nonempty vectors the source feeds it. -/
def vmin : List ℚ → ℚ
  | [] => 0
  | x :: xs => xs.foldl min x

/-- Embeds numpy `v.max()` for the nonempty vectors the source feeds it. -/
def vmax : List ℚ → ℚ
  | [] => 0
  | x :: xs => xs.foldl max x

/-- Embeds numpy `v.ptp()` (peak-to-peak, `max - min`). -/
def ptp (v : List ℚ) : ℚ := vmax v - vmin v

/-- Embeds `normalize` (core.py lines 45-49):
`(vector - vector.min()) / vector.ptp() - 0.5`.  When `ptp v = 0` every
numerator is `0` and numpy computes `0/0 = NaN` for each entry, silently;
a NaN entry is represented as `none`. -/
def normalize (v : List ℚ) : List (Option ℚ) :=
  v.map fun x =>
    if ptp v = 0 then none else some ((x - vmin v) / ptp v - 1/2)

/-- Embeds the mask update of `CheopsLightCurve.sigma_clip_centroid`
(core.py lines 281-298): `self.mask |= outliers`.  The outlier vector is
computed in the source as `sigma * min(mad_std(x), mad_std(y)) <
np.hypot(x - median(x), y - median(y))`, a float computation through
`np.median`, `mad_std` and `np.hypot`; it enters the embedding as the
parameter `outliers`, so the statements below hold for every value that
computation can take and every parameter `sigma`. -/
def sigma_clip_centroid (mask outliers : List Bool) : List Bool :=
  List.zipWith (· || ·) mask outliers

/-- Embeds the mask update of `CheopsLightCurve.sigma_clip_flux` (core.py
lines 319-321): `self.mask[~self.mask] |= sc(self.flux[~self.mask]).mask`.
The astropy `SigmaClip` output on the currently unmasked fluxes is an
external collaborator's result and enters as the second argument; positions
already `true` in the mask are untouched, the `false` positions are OR-ed
with the successive entries of the clip result. -/
def sigma_clip_flux : List Bool → List Bool → List Bool
  | [], _ => []
  | true :: ms, u => true :: sigma_clip_flux ms u
  | false :: ms, [] => false :: sigma_clip_flux ms []
  | false :: ms, u :: us => (false || u) :: sigma_clip_flux ms us

/-- Embeds `CheopsLightCurve.high_bg_clip` (core.py lines 341-342):
`msk = self.bg > bgmin; self.mask |= msk`. -/
def high_bg_clip (mask : List Bool) (bg : List ℚ) (bgmin : ℚ) : List Bool :=
  List.zipWith (· || ·) mask (bg.map fun b => decide (bgmin < b))

/-- Embeds the attribute set of a `CheopsLightCurve` that the design-matrix
builders, masking operations and regressions read.  Optional members of the
observable vocabulary (absent when the record source does not provide them,
§3 of the spec) are `Option`-valued; `none` means the Python attribute does
not exist and touching it raises `AttributeError`. -/
structure LC where
  bjd_time : List ℚ
  roll_angle : List ℚ
  flux : List ℚ
  fluxerr : List ℚ
  mask : List Bool
  centroid_x : Option (List ℚ)
  centroid_y : Option (List ℚ)
  background : Option (List ℚ)
  xc : Option (List ℚ)
  yc : Option (List ℚ)
  bg : Option (List ℚ)
  conta_lc : Option (List ℚ)
  smearing_lc : Option (List ℚ)
  u1 : Option (List ℚ)
  u2 : Option (List ℚ)
  extra_basis_vectors : Option (List (List ℚ))

/-- Embeds numpy boolean indexing `v[~mask]`: keep the entries whose mask
bit is `false`. -/
def boolIndex {α : Type} (l : List α) (m : List Bool) : List α :=
  (l.zip m).filterMap fun p => if p.2 then none else some p.1

/-- Embeds the target vector of `JointLightCurve.regress` (core.py lines
650-656): `flux = np.concatenate([lc.flux for lc in self])`, likewise for
the mask, then `flux[~mask]`. -/
def joint_regress_flux (lcs : List LC) : List ℚ :=
  boolIndex (lcs.map LC.flux).flatten (lcs.map LC.mask).flatten

/-- Embeds the uncertainty vector of `JointLightCurve.regress` (core.py
lines 651-656): `fluxerr = np.concatenate(...)`, then `fluxerr[~mask]`. -/
def joint_regress_fluxerr (lcs : List LC) : List ℚ :=
  boolIndex (lcs.map LC.fluxerr).flatten (lcs.map LC.mask).flatten

/-- Two tiny concrete light curves used by the witnesses below. -/
def lcW1 : LC :=
  ⟨[0], [0], [1], [2], [false], none, none, none, none, none, none,
   none, none, none, none, none⟩

/-- Second tiny concrete light curve used by the witnesses below. -/
def lcW2 : LC :=
  ⟨[0], [0], [3], [4], [true], none, none, none, none, none, none,
   none, none, none, none, none⟩

/-- Embeds the per-column normalization switch of the design-matrix
builders: the `if norm:` branches feed each column through `normalize`, the
`else` branches keep the raw vector (whose entries are never NaN). -/
def normCol (norm : Bool) (v : List ℚ) : List (Option ℚ) :=
  if norm then normalize v else v.map some

/-- Embeds `np.vstack(columns).T` followed by row access: row `p` of the
transposed matrix collects entry `p` of every column. -/
def buildRows (cols : List (List (Option ℚ))) (n : ℕ) :
    List (List (Option ℚ)) :=
  (List.range n).map fun p => cols.map fun c => c.getD p none

/-- Embeds `CheopsLightCurve.design_matrix` (core.py lines 156-190):
columns `normalize(np.cos(np.radians(roll_angle)))`,
`normalize(np.sin(np.radians(roll_angle)))` and a constant ones column of
length `len(bjd_time)` (the two trigonometric columns raw when `norm` is
false; the ones column never normalized), horizontally extended with the
extra basis vectors when present, transposed, and restricted to the
unmasked rows by `X[~mask]`.  The parameters `npsin`, `npcos`, `nprad`
abstract the float routines `np.sin`, `np.cos`, `np.radians`; the theorems
below hold for every instantiation. -/
def design_matrix (npsin npcos nprad : ℚ → ℚ) (lc : LC) (norm : Bool) :
    List (List (Option ℚ)) :=
  let n := lc.bjd_time.length
  let base := [normCol norm (lc.roll_angle.map fun t => npcos (nprad t)),
               normCol norm (lc.roll_angle.map fun t => npsin (nprad t)),
               (List.replicate n (1 : ℚ)).map some]
  let cols := base ++ (match lc.extra_basis_vectors with
    | some ebv => ebv.map fun r => List.map some r
    | none => [])
  boolIndex (buildRows cols n) lc.mask

/-- Embeds the `try/except` centroid resolution of `design_matrix_all`
(core.py lines 226-229): use `centroid_x`, `centroid_y`, `background` when
all three exist, otherwise fall back to `xc`, `yc`, `bg`; if those are also
missing the `AttributeError` escapes (`none`). -/
def centroidTriple (lc : LC) : Option (List ℚ × List ℚ × List ℚ) :=
  match lc.centroid_x, lc.centroid_y, lc.background with
  | some x, some y, some b => some (x, y, b)
  | _, _, _ =>
    match lc.xc, lc.yc, lc.bg with
    | some x, some y, some b => some (x, y, b)
    | _, _, _ => none

/-- The two roll-angle harmonic columns appended by iteration `i` of the
`for i in range(harmonics)` loop of `design_matrix_all` (core.py lines
214-224): `sin((i+1)*radians(roll))` then `cos((i+1)*radians(roll))`,
each through `normalize` when `norm` is set. -/
def harmCols (npsin npcos nprad : ℚ → ℚ) (roll : List ℚ) (norm : Bool)
    (i : ℕ) : List (List (Option ℚ)) :=
  [normCol norm (roll.map fun t => npsin (((i : ℚ) + 1) * nprad t)),
   normCol norm (roll.map fun t => npcos (((i : ℚ) + 1) * nprad t))]

/-- The two column names appended by iteration `i` of the harmonics loop:
`sin{i+1}` and `cos{i+1}`. -/
def harmNames (i : ℕ) : List String :=
  ["sin" ++ toString (i + 1), "cos" ++ toString (i + 1)]

/-- Embeds `CheopsLightCurve.design_matrix_all` (core.py lines 192-265):
starting from a ones column named `ones`, the loop over `range(harmonics)`
appends `sin((i+1)·radians(roll))` and `cos((i+1)·radians(roll))` columns
with names `sin{i+1}`/`cos{i+1}` (written here via `toString`); then the
resolved centroid columns `xc, yc, xc², yc², xc·yc, bg`; then — in two
*independent* `try` blocks — `conta_lc`/`smearing_lc` when both exist and
`u1`/`u2` when both exist; finally the extra basis vectors.  Each data
column goes through `normalize` when `norm` is set; the matrix is
transposed and restricted to unmasked rows; the ordered name list is
returned alongside.  `none` is the escaping `AttributeError` when no
centroid set exists. -/
def design_matrix_all (npsin npcos nprad : ℚ → ℚ) (lc : LC)
    (harmonics : ℕ) (norm : Bool) :
    Option (List (List (Option ℚ)) × List String) :=
  let n := lc.bjd_time.length
  let start : List (List (Option ℚ)) × List String :=
    ([(List.replicate n (1 : ℚ)).map some], ["ones"])
  let h := (List.range harmonics).foldl
    (fun acc i =>
      (acc.1 ++ harmCols npsin npcos nprad lc.roll_angle norm i,
       acc.2 ++ harmNames i))
    start
  match centroidTriple lc with
  | none => none
  | some (xcv, ycv, bgv) =>
    let c1 := (h.1 ++ [normCol norm xcv, normCol norm ycv,
                       normCol norm (List.zipWith (· * ·) xcv xcv),
                       normCol norm (List.zipWith (· * ·) ycv ycv),
                       normCol norm (List.zipWith (· * ·) xcv ycv),
                       normCol norm bgv],
               h.2 ++ ["xc", "yc", "x2", "y2", "xy", "bg"])
    let c2 := match lc.conta_lc, lc.smearing_lc with
      | some cl, some sl =>
        (c1.1 ++ [normCol norm cl, normCol norm sl],
         c1.2 ++ ["contamination", "smearing"])
      | _, _ => c1
    let c3 := match lc.u1, lc.u2 with
      | some a, some b =>
        (c2.1 ++ [normCol norm a, normCol norm b], c2.2 ++ ["u1", "u2"])
      | _, _ => c2
    let c4 := match lc.extra_basis_vectors with
      | some ebv =>
        (c3.1 ++ ebv.map fun r => List.map some r,
         c3.2 ++ (List.range ebv.length).map fun i =>
           "extra" ++ toString (i + 1))
      | none => c3
    some (boolIndex (buildRows c4.1 n) lc.mask, c4.2)

/-- Embeds `np.count_nonzero(~mask)`: the number of unmasked samples. -/
def countFalse (m : List Bool) : ℕ := m.countP fun b => !b

/-- Closed form of the column list produced by `design_matrix_all` when the
centroid triple resolves to `(xcv, ycv, bgv)`: the ones column, the `2H`
harmonic columns, the six centroid/background columns, the
contamination/smearing pair when both vectors exist, the `u1`/`u2` pair
when both exist, and the extra basis vectors. -/
def allCols (npsin npcos nprad : ℚ → ℚ) (lc : LC)
    (xcv ycv bgv : List ℚ) (harmonics : ℕ) (norm : Bool) :
    List (List (Option ℚ)) :=
  (List.replicate lc.bjd_time.length (1 : ℚ)).map some
    :: ((List.range harmonics).map
          (harmCols npsin npcos nprad lc.roll_angle norm)).flatten
    ++ [normCol norm xcv, normCol norm ycv,
        normCol norm (List.zipWith (· * ·) xcv xcv),
        normCol norm (List.zipWith (· * ·) ycv ycv),
        normCol norm (List.zipWith (· * ·) xcv ycv),
        normCol norm bgv]
    ++ (match lc.conta_lc, lc.smearing_lc with
        | some cl, some sl => [normCol norm cl, normCol norm sl]
        | _, _ => [])
    ++ (match lc.u1, lc.u2 with
        | some a, some b => [normCol norm a, normCol norm b]
        | _, _ => [])
    ++ (match lc.extra_basis_vectors with
        | some ebv => ebv.map fun r => List.map some r
        | none => [])

/-- Closed form of the name list produced by `design_matrix_all`, in the
same order as `allCols`. -/
def allNames (lc : LC) (harmonics : ℕ) : List String :=
  "ones" :: ((List.range harmonics).map harmNames).flatten
    ++ ["xc", "yc", "x2", "y2", "xy", "bg"]
    ++ (match lc.conta_lc, lc.smearing_lc with
        | some _, some _ => ["contamination", "smearing"]
        | _, _ => [])
    ++ (match lc.u1, lc.u2 with
        | some _, some _ => ["u1", "u2"]
        | _, _ => [])
    ++ (match lc.extra_basis_vectors with
        | some ebv => (List.range ebv.length).map fun i =>
            "extra" ++ toString (i + 1)
        | none => [])

/-- A third tiny concrete light curve, with PIPE-style centroid columns. -/
def lcW3 : LC :=
  ⟨[0], [0], [1], [2], [false], none, none, none, some [0], some [0],
   some [0], none, none, none, none, none⟩

/-- A concrete light curve carrying contamination, smearing, `u1` and `u2`
simultaneously (all four attributes can coexist: the vocabulary holds both
the DRP and the PIPE names). -/
def lcW4 : LC :=
  ⟨[0], [0], [1], [2], [false], none, none, none, some [0], some [0],
   some [0], some [0], some [0], some [0], some [0], none⟩

/-- The module-level `attrs` vocabulary of `linea/core.py` (lines 16-42):
the DRP vector names followed by the PIPE vector names. -/
def attrs : List String :=
  ["background", "bjd_time", "centroid_x", "centroid_y", "conta_lc",
   "conta_lc_err", "dark", "event", "flux", "fluxerr", "location_x",
   "location_y", "mjd_time", "roll_angle", "smearing_lc",
   "smearing_lc_err", "status", "utc_time", "u0", "u1", "u2", "xc", "yc",
   "bg"]

/-- The attribute names a freshly constructed `JointLightCurve` carries at
the moment its per-attribute loop runs (core.py lines 517-531): the two
instance attributes assigned just before the loop plus the class's own
callables.  (The `object`-inherited dunder names all start and end with
underscores and can never collide with the vocabulary, so they are not
listed.) -/
def jointLightCurveOwnAttrs : List String :=
  ["light_curves", "attrs", "from_example", "concatenate", "_pad_shapes",
   "combined_design_matrix", "regress", "plot"]

/-- Embeds Python `str.lower()` on the ASCII field names of FITS records:
each character lowered individually. -/
def lowerName (s : String) : String := String.mk (s.data.map Char.toLower)

/-- Embeds the copying loop of `JointLightCurve.__init__` (core.py lines
526-531): `self.attrs = [attr.lower() for attr in recs.dtype.fields]`,
then for each such name, `if hasattr(self, attr): setattr(self, attr,
...)`; the returned list holds the attributes the loop would copy onto the
joint object itself. -/
def jointInitCopied (fieldNames : List String) : List String :=
  (fieldNames.map fun f => lowerName f).filter
    fun a => jointLightCurveOwnAttrs.contains a

/-- Embeds `np.zeros((r, c))` as a list of `r` zero rows of width `c`. -/
def zeros (r c : ℕ) : List (List ℚ) :=
  List.replicate r (List.replicate c (0 : ℚ))

/-- Embeds `np.hstack` on two blocks of equal height: corresponding rows
concatenate. -/
def hstack2 (A B : List (List ℚ)) : List (List ℚ) :=
  List.zipWith (· ++ ·) A B

/-- Embeds `np.hstack(Xs_padded)` on a nonempty list of blocks. -/
def hstackAll : List (List (List ℚ)) → List (List ℚ)
  | [] => []
  | [A] => A
  | A :: rest => hstack2 A (hstackAll rest)

/-- Embeds `JointLightCurve._pad_shapes` (core.py lines 573-577): the
per-visit unmasked sample counts `np.count_nonzero(~lc.mask)`. -/
def _pad_shapes (lcs : List LC) : List ℕ :=
  lcs.map fun lc => countFalse lc.mask

/-- Embeds `JointLightCurve.combined_design_matrix` (core.py lines
579-618): with `shapes = self._pad_shapes()` and
`ndim = design_matrices[0].shape[1]`, visit `i`'s design matrix gets
`zeros((sum(shapes[:i]), ndim))` stacked above and
`zeros((sum(shapes[i+1:]), ndim))` below (the `None` pads of the source are
the empty blocks here), and the padded blocks are `np.hstack`-ed. -/
def combined_design_matrix (lcs : List LC) (ds : List (List (List ℚ))) :
    List (List ℚ) :=
  let shapes := _pad_shapes lcs
  let ndim := ((ds.headD []).headD []).length
  hstackAll ((List.range ds.length).map fun i =>
    zeros ((shapes.take i).sum) ndim ++ ds.getD i []
      ++ zeros ((shapes.drop (i + 1)).sum) ndim)

/-- A second concrete light curve with two unmasked samples, for the C4
witness. -/
def lcW5 : LC :=
  ⟨[0, 1], [0, 0], [1, 1], [1, 1], [false, false], none, none, none, none,
   none, none, none, none, none, none, none⟩

/-- Concrete per-visit design matrices for the C4 witness: one 1×2 block
and one 2×2 block. -/
def dsW : List (List (List ℚ)) := [[[1, 2]], [[3, 4], [5, 6]]]

lemma pymod_eq_mul_fract (a b : ℚ) (hb : b ≠ 0) :
    pymod a b = b * Int.fract (a / b) := by
  rw [pymod, Int.fract, mul_sub]
  congr 1
  rw [mul_comm, div_mul_cancel₀ a hb]

lemma phase_eq_fract (t t0 per : ℚ) (h : per ≠ 0) :
    phase t t0 per = Int.fract ((t - t0) / per) := by
  rw [phase, pymod_eq_mul_fract _ _ h, mul_comm,
    mul_div_assoc, div_self h, mul_one]

lemma foldPhase_eq_fract (t t0 per : ℚ) :
    foldPhase t t0 per = Int.fract ((t - t0) / per) := by
  rw [foldPhase, pymod_eq_mul_fract _ _ one_ne_zero, one_mul, div_one]

lemma remapCut_mem (cut p : ℚ) (hc0 : 0 ≤ cut) (hc1 : cut < 1)
    (h0 : 0 ≤ p) (h1 : p < 1) :
    cut - 1 < remapCut cut p ∧ remapCut cut p ≤ cut := by
  unfold remapCut
  split <;> constructor <;> linarith

lemma zipWith_or_map_getD (m : List Bool) (l : List ℚ) (g : ℚ → Bool)
    (hlen : m.length = l.length) (i : ℕ) (hi : i < m.length) :
    (List.zipWith (· || ·) m (l.map g)).getD i true
      = (m.getD i true || g (l.getD i 0)) := by
  have hi2 : i < l.length := hlen ▸ hi
  have hz : i < (List.zipWith (· || ·) m (l.map g)).length := by
    simpa [List.length_zipWith, hlen] using hi2
  rw [List.getD_eq_getElem _ _ hz, List.getD_eq_getElem _ _ hi,
    List.getD_eq_getElem _ _ hi2, List.getElem_zipWith, List.getElem_map]

/-- C1, corrected: `mask_planetary_signal` masks exactly the samples that lie
*inside* the window of half-duration `t14` around the transit or the eclipse
phase: after the call a sample is unmasked iff it was unmasked before and is
at least `t14` away from both event centers.  (The spec claims the opposite
polarity: that the call keeps only the in-transit/in-eclipse samples.) -/
theorem C1_mask_planetary_signal_keeps_out_of_window
    (mask : List Bool) (bjd : List ℚ) (per t0 t14 : ℚ)
    (hlen : mask.length = bjd.length) (i : ℕ) (hi : i < mask.length) :
    (mask_planetary_signal mask bjd per t0 t14).getD i true = false ↔
      mask.getD i true = false ∧
        outsideBoth (bjd.getD i 0) per t0 t14 = true := by
  rw [mask_planetary_signal, zipWith_or_map_getD _ _ _ hlen i hi]
  cases hm : mask.getD i true <;>
    cases ho : outsideBoth (bjd.getD i 0) per t0 t14 <;> simp

/-- Witness for C1: a two-sample instance evaluated concretely. -/
theorem C1_mask_planetary_signal_keeps_out_of_window_witness :
    (mask_planetary_signal [false, true] [0, 1/4] 1 0 (1/10)).getD 0 true
        = false ↔
      ([false, true].getD 0 true = false ∧
        outsideBoth (([0, 1/4] : List ℚ).getD 0 0) 1 0 (1/10) = true) :=
  C1_mask_planetary_signal_keeps_out_of_window [false, true] [0, 1/4]
    1 0 (1/10) (by simp) 0 (by simp)

/-- C1 counterexample: with period 1, transit epoch 0 and window `t14 = 1/10`,
the sample at `t = 1/4` is at least `t14` from both the transit (phase 0)
and the eclipse (phase 1/2) centers, yet the call leaves it unmasked, while
the in-transit sample at `t = 0` gets masked — the opposite of the claimed
"keep only in-transit/in-eclipse samples" behaviour. -/
theorem C1_mask_planetary_signal_counterexample :
    outsideBoth (1/4) 1 0 (1/10) = true ∧
    mask_planetary_signal [false, false] [0, 1/4] 1 0 (1/10)
      = [true, false] := by
  have h0 : outsideBoth 0 1 0 (1/10) = false := by
    norm_num [outsideBoth, remapCut, foldPhase, pymod, Int.fract,
      abs_of_nonneg, abs_of_nonpos]
  have h1 : outsideBoth (1/4) 1 0 (1/10) = true := by
    norm_num [outsideBoth, remapCut, foldPhase, pymod, Int.fract,
      abs_of_nonneg, abs_of_nonpos]
  exact ⟨h1, by simpa [mask_planetary_signal] using And.intro h0 h1⟩

/-- C2, corrected: for a positive period the phase folders use true
mathematical (floor-based) modulo, but the general `phase` method applies
*no* branch-cut remap: it returns the raw fractional phase in `[0, 1)` (and
agrees with the `((t-t0)/per) % 1` folding used in `mask_planetary_signal`).
The `0.5` branch cut exists only inside `mask_planetary_signal` and the
`0.95` cut only in `plot_phase_curve`, and each remapped value lies in the
half-open interval `(cut - 1, cut]` (the value `cut` itself is *not*
remapped), not `[cut - 1, cut)` as claimed. -/
theorem C2_phase_folding (t t0 off per : ℚ) (hper : 0 < per) :
    phase t t0 per = pymod (t - t0) per / per ∧
    0 ≤ phase t t0 per ∧ phase t t0 per < 1 ∧
    phase t t0 per = foldPhase t t0 per ∧
    1/2 - 1 < remapCut (1/2) (foldPhase t t0 per) ∧
    remapCut (1/2) (foldPhase t t0 per) ≤ 1/2 ∧
    19/20 - 1 < plotPhase t t0 off per ∧
    plotPhase t t0 off per ≤ 19/20 := by
  have hne : per ≠ 0 := ne_of_gt hper
  have hp := phase_eq_fract t t0 per hne
  have hf := foldPhase_eq_fract t t0 per
  have hfr0 : (0:ℚ) ≤ Int.fract ((t - t0) / per) := Int.fract_nonneg _
  have hfr1 : Int.fract ((t - t0) / per) < 1 := Int.fract_lt_one _
  have hplot0 : (0:ℚ) ≤ pymod (t - t0 - off) per / per := by
    rw [pymod_eq_mul_fract _ _ hne, mul_comm, mul_div_assoc, div_self hne,
      mul_one]
    exact Int.fract_nonneg _
  have hplot1 : pymod (t - t0 - off) per / per < 1 := by
    rw [pymod_eq_mul_fract _ _ hne, mul_comm, mul_div_assoc, div_self hne,
      mul_one]
    exact Int.fract_lt_one _
  have hmem := remapCut_mem (1/2) (foldPhase t t0 per) (by norm_num)
    (by norm_num) (hf ▸ hfr0) (hf ▸ hfr1)
  have hmem2 := remapCut_mem (19/20) (pymod (t - t0 - off) per / per)
    (by norm_num) (by norm_num) hplot0 hplot1
  exact ⟨rfl, hp ▸ hfr0, hp ▸ hfr1, hp.trans hf.symm, hmem.1, hmem.2,
    hmem2.1, hmem2.2⟩

/-- Witness for C2: the amended statement instantiated at
`t = 3, t0 = 0, off = 0, per = 2`. -/
theorem C2_phase_folding_witness :
    phase 3 0 2 = pymod (3 - 0) 2 / 2 ∧
    0 ≤ phase 3 0 2 ∧ phase 3 0 2 < 1 ∧
    phase 3 0 2 = foldPhase 3 0 2 ∧
    1/2 - 1 < remapCut (1/2) (foldPhase 3 0 2) ∧
    remapCut (1/2) (foldPhase 3 0 2) ≤ 1/2 ∧
    19/20 - 1 < plotPhase 3 0 0 2 ∧
    plotPhase 3 0 0 2 ≤ 19/20 :=
  C2_phase_folding 3 0 0 2 (by norm_num)

/-- C2 counterexample: the `phase` method itself performs no remap at the
`0.5` cut: at `t = 3/2`, `t0 = 0`, `per = 2` the raw phase `3/4` exceeds
`1/2` yet is returned unchanged, outside the claimed interval
`[1/2 - 1, 1/2)`. -/
theorem C2_phase_no_remap_counterexample :
    phase (3/2) 0 2 = 3/4 ∧ ¬((3:ℚ)/4 < 1/2) := by
  constructor
  · norm_num [phase, pymod]
  · norm_num

lemma foldl_min_map (f : ℚ → ℚ) (hf : ∀ a b, f (min a b) = min (f a) (f b)) :
    ∀ (xs : List ℚ) (a : ℚ), (xs.map f).foldl min (f a) = f (xs.foldl min a)
  | [], _ => rfl
  | x :: xs, a => by
    simp only [List.map_cons, List.foldl_cons, ← hf]
    exact foldl_min_map f hf xs (min a x)

lemma foldl_max_map (f : ℚ → ℚ) (hf : ∀ a b, f (max a b) = max (f a) (f b)) :
    ∀ (xs : List ℚ) (a : ℚ), (xs.map f).foldl max (f a) = f (xs.foldl max a)
  | [], _ => rfl
  | x :: xs, a => by
    simp only [List.map_cons, List.foldl_cons, ← hf]
    exact foldl_max_map f hf xs (max a x)

lemma vmin_map (f : ℚ → ℚ) (hf : ∀ a b, f (min a b) = min (f a) (f b))
    (v : List ℚ) (hv : v ≠ []) : vmin (v.map f) = f (vmin v) := by
  cases v with
  | nil => exact absurd rfl hv
  | cons x xs => simpa [vmin] using foldl_min_map f hf xs x

lemma vmax_map (f : ℚ → ℚ) (hf : ∀ a b, f (max a b) = max (f a) (f b))
    (v : List ℚ) (hv : v ≠ []) : vmax (v.map f) = f (vmax v) := by
  cases v with
  | nil => exact absurd rfl hv
  | cons x xs => simpa [vmax] using foldl_max_map f hf xs x

lemma foldl_min_le_init : ∀ (xs : List ℚ) (a : ℚ), xs.foldl min a ≤ a
  | [], a => le_refl a
  | x :: xs, a => le_trans (foldl_min_le_init xs (min a x)) (min_le_left a x)

lemma init_le_foldl_max : ∀ (xs : List ℚ) (a : ℚ), a ≤ xs.foldl max a
  | [], a => le_refl a
  | x :: xs, a => le_trans (le_max_left a x) (init_le_foldl_max xs (max a x))

lemma vmin_le_vmax (v : List ℚ) (hv : v ≠ []) : vmin v ≤ vmax v := by
  cases v with
  | nil => exact absurd rfl hv
  | cons x xs =>
    exact le_trans (foldl_min_le_init xs x) (init_le_foldl_max xs x)

lemma affine_min_morphism (m r c : ℚ) (hr : 0 < r) (a b : ℚ) :
    (min a b - m) / r - c = min ((a - m) / r - c) ((b - m) / r - c) := by
  rw [min_sub_sub_right, min_div_div_right hr.le, min_sub_sub_right]

lemma affine_max_morphism (m r c : ℚ) (hr : 0 < r) (a b : ℚ) :
    (max a b - m) / r - c = max ((a - m) / r - c) ((b - m) / r - c) := by
  rw [max_sub_sub_right, max_div_div_right hr.le, max_sub_sub_right]

/-- C3, corrected: on a non-constant vector `normalize` rescales linearly so
that the minimum becomes exactly `-0.5` and the maximum exactly `+0.5`; on a
constant (zero-range) vector it does *not* raise any error — no
`DegenerateInputError` exists in the code — but silently returns NaN in
every entry (the `0/0` of numpy, modeled as `none`). -/
theorem C3_normalize_range (v : List ℚ) (h : ptp v ≠ 0) :
    normalize v = v.map (fun x => some ((x - vmin v) / ptp v - 1/2)) ∧
    vmin (v.map fun x => (x - vmin v) / ptp v - 1/2) = -(1/2) ∧
    vmax (v.map fun x => (x - vmin v) / ptp v - 1/2) = 1/2 := by
  have hv : v ≠ [] := by
    rintro rfl
    exact h (by simp [ptp, vmin, vmax])
  have hr : 0 < ptp v :=
    lt_of_le_of_ne (by simpa [ptp, sub_nonneg] using vmin_le_vmax v hv)
      (Ne.symm h)
  refine ⟨by simp [normalize, h], ?_, ?_⟩
  · rw [vmin_map _ (fun a b => affine_min_morphism (vmin v) (ptp v) (1/2) hr
      a b) v hv]
    simp
  · rw [vmax_map _ (fun a b => affine_max_morphism (vmin v) (ptp v) (1/2) hr
      a b) v hv]
    rw [show vmax v - vmin v = ptp v from rfl, div_self h]
    norm_num

/-- Witness for C3: the amended statement instantiated at `v = [0, 1]`. -/
theorem C3_normalize_range_witness :
    normalize [0, 1]
        = ([0, 1] : List ℚ).map
            (fun x => some ((x - vmin [0, 1]) / ptp [0, 1] - 1/2)) ∧
    vmin (([0, 1] : List ℚ).map
        fun x => (x - vmin [0, 1]) / ptp [0, 1] - 1/2) = -(1/2) ∧
    vmax (([0, 1] : List ℚ).map
        fun x => (x - vmin [0, 1]) / ptp [0, 1] - 1/2) = 1/2 :=
  C3_normalize_range [0, 1] (by norm_num [ptp, vmin, vmax])

/-- C3 counterexample: on the constant vector `[1, 1]` the code raises
nothing: `normalize` returns normally, with every entry NaN (`none`), i.e.
the division by the zero range is silent, and no `DegenerateInputError`
is defined anywhere in the source. -/
theorem C3_normalize_constant_counterexample :
    normalize [1, 1] = [none, none] := by
  norm_num [normalize, ptp, vmin, vmax]

lemma zipWith_or_mono (m : List Bool) :
    ∀ (o : List Bool) (i : ℕ), o.length = m.length →
      m.getD i false = true →
      (List.zipWith (· || ·) m o).getD i false = true := by
  induction m with
  | nil => intro o i _ h; simp at h
  | cons b ms ih =>
    intro o i hlen h
    cases o with
    | nil => simp at hlen
    | cons c os =>
      cases i with
      | zero => simp_all
      | succ j =>
        simp only [List.zipWith_cons_cons, List.getD_cons_succ] at h ⊢
        exact ih os j (by simpa using hlen) h

lemma sigma_clip_flux_mono : ∀ (m u : List Bool) (i : ℕ),
    m.getD i false = true → (sigma_clip_flux m u).getD i false = true
  | [], _, i, h => by simp at h
  | true :: _, _, 0, _ => rfl
  | true :: ms, u, i+1, h => by
    simpa [sigma_clip_flux] using
      sigma_clip_flux_mono ms u i (by simpa using h)
  | false :: _, [], 0, h => by simp at h
  | false :: ms, [], i+1, h => by
    simpa [sigma_clip_flux] using
      sigma_clip_flux_mono ms [] i (by simpa using h)
  | false :: _, _ :: _, 0, h => by simp at h
  | false :: ms, u :: us, i+1, h => by
    simpa [sigma_clip_flux] using
      sigma_clip_flux_mono ms us i (by simpa using h)

/-- C5, confirmed: every masking operation only grows the mask.  For each of
the centroid sigma-clip, the flux sigma-clip, the high-background clip and
the planetary-signal mask, any sample masked before the call is still
masked after it, for all data and parameter values. -/
theorem C5_mask_monotonic (mask outliers clipped : List Bool)
    (bg bjd : List ℚ) (bgmin per t0 t14 : ℚ) (i : ℕ)
    (hi : mask.getD i false = true)
    (ho : outliers.length = mask.length)
    (hb : bg.length = mask.length)
    (ht : bjd.length = mask.length) :
    (sigma_clip_centroid mask outliers).getD i false = true ∧
    (sigma_clip_flux mask clipped).getD i false = true ∧
    (high_bg_clip mask bg bgmin).getD i false = true ∧
    (mask_planetary_signal mask bjd per t0 t14).getD i false = true := by
  refine ⟨zipWith_or_mono mask outliers i ho hi,
    sigma_clip_flux_mono mask clipped i hi,
    zipWith_or_mono mask _ i (by simpa using hb) hi,
    zipWith_or_mono mask _ i (by simpa using ht) hi⟩

/-- Witness for C5: a concrete instance with one already-masked sample. -/
theorem C5_mask_monotonic_witness :
    (sigma_clip_centroid [true, false] [false, true]).getD 0 false = true ∧
    (sigma_clip_flux [true, false] [true]).getD 0 false = true ∧
    (high_bg_clip [true, false] [0, 400] 300).getD 0 false = true ∧
    (mask_planetary_signal [true, false] [0, 1/4] 1 0 (1/10)).getD 0 false
      = true :=
  C5_mask_monotonic [true, false] [false, true] [true] [0, 400] [0, 1/4]
    300 1 0 (1/10) 0 (by simp) (by simp) (by simp) (by simp)

lemma boolIndex_append {α : Type} (l l' : List α) (m m' : List Bool)
    (h : l.length = m.length) :
    boolIndex (l ++ l') (m ++ m') = boolIndex l m ++ boolIndex l' m' := by
  rw [boolIndex, List.zip_append h, List.filterMap_append]
  rfl

lemma boolIndex_join (f : LC → List ℚ) :
    ∀ (lcs : List LC), (∀ lc ∈ lcs, (f lc).length = lc.mask.length) →
      boolIndex (lcs.map f).flatten (lcs.map LC.mask).flatten
        = (lcs.map fun lc => boolIndex (f lc) lc.mask).flatten := by
  intro lcs
  induction lcs with
  | nil => intro _; rfl
  | cons lc rest ih =>
    intro h
    simp only [List.map_cons, List.flatten_cons]
    rw [boolIndex_append _ _ _ _ (h lc (by simp)), ih]
    intro x hx
    exact h x (List.mem_cons_of_mem _ hx)

/-- C7, confirmed: the target and uncertainty vectors of the joint
regression — concatenate all visits' flux (resp. fluxerr), concatenate all
masks, then index with the negated mask — equal the concatenation, in visit
list order, of each visit's `flux[~mask]` (resp. `fluxerr[~mask]`). -/
theorem C7_joint_regress_concatenation (lcs : List LC)
    (hf : ∀ lc ∈ lcs, lc.flux.length = lc.mask.length)
    (he : ∀ lc ∈ lcs, lc.fluxerr.length = lc.mask.length) :
    joint_regress_flux lcs
        = (lcs.map fun lc => boolIndex lc.flux lc.mask).flatten ∧
    joint_regress_fluxerr lcs
        = (lcs.map fun lc => boolIndex lc.fluxerr lc.mask).flatten :=
  ⟨boolIndex_join LC.flux lcs hf, boolIndex_join LC.fluxerr lcs he⟩

/-- Witness for C7: two one-sample visits, evaluated concretely. -/
theorem C7_joint_regress_concatenation_witness :
    joint_regress_flux [lcW1, lcW2]
        = ([lcW1, lcW2].map fun lc => boolIndex lc.flux lc.mask).flatten ∧
    joint_regress_fluxerr [lcW1, lcW2]
        = ([lcW1, lcW2].map fun lc => boolIndex lc.fluxerr lc.mask).flatten :=
  C7_joint_regress_concatenation [lcW1, lcW2]
    (by intro lc hlc; fin_cases hlc <;> rfl)
    (by intro lc hlc; fin_cases hlc <;> rfl)

lemma boolIndex_length {α : Type} :
    ∀ (l : List α) (m : List Bool), l.length = m.length →
      (boolIndex l m).length = countFalse m
  | [], [], _ => rfl
  | [], _ :: _, h => by simp at h
  | _ :: _, [], h => by simp at h
  | x :: xs, b :: bs, h => by
    cases b <;>
      simp [boolIndex, countFalse, List.countP_cons] at * <;>
      simpa [boolIndex, countFalse] using boolIndex_length xs bs h

lemma length_buildRows (cols : List (List (Option ℚ))) (n : ℕ) :
    (buildRows cols n).length = n := by
  simp [buildRows]

lemma foldl_pair_append {α β ι : Type} (g : ι → List α) (h : ι → List β) :
    ∀ (l : List ι) (a : List α) (b : List β),
      l.foldl (fun acc i => (acc.1 ++ g i, acc.2 ++ h i)) (a, b)
        = (a ++ (l.map g).flatten, b ++ (l.map h).flatten)
  | [], a, b => by simp
  | x :: xs, a, b => by
    simp only [List.foldl_cons, List.map_cons, List.flatten_cons]
    rw [foldl_pair_append g h xs (a ++ g x) (b ++ h x)]
    simp [List.append_assoc]

lemma design_matrix_all_spec (npsin npcos nprad : ℚ → ℚ) (lc : LC)
    (harmonics : ℕ) (norm : Bool) (xcv ycv bgv : List ℚ)
    (hct : centroidTriple lc = some (xcv, ycv, bgv)) :
    design_matrix_all npsin npcos nprad lc harmonics norm
      = some (boolIndex
          (buildRows (allCols npsin npcos nprad lc xcv ycv bgv harmonics
            norm) lc.bjd_time.length) lc.mask,
        allNames lc harmonics) := by
  obtain ⟨bjd, roll, fl, fe, mk, cx, cy, bgd, xcf, ycf, bgf, clf, smf,
    u1f, u2f, ebvf⟩ := lc
  rw [design_matrix_all, hct,
    foldl_pair_append (harmCols npsin npcos nprad roll norm)
      harmNames (List.range harmonics)]
  rcases clf with - | cl <;> rcases smf with - | sl <;>
    rcases u1f with - | u1v <;> rcases u2f with - | u2v <;>
    rcases ebvf with - | ebv <;>
    simp [allCols, allNames, List.append_assoc]

/-- C8, confirmed: for every light curve, every mask, every harmonic count,
every normalization flag and every combination of optional column groups,
the row count of the matrix returned by `design_matrix` and by
`design_matrix_all` equals the number of unmasked samples. -/
theorem C8_design_matrix_row_count (npsin npcos nprad : ℚ → ℚ) (lc : LC)
    (harmonics : ℕ) (norm : Bool)
    (hm : lc.mask.length = lc.bjd_time.length) :
    (design_matrix npsin npcos nprad lc norm).length = countFalse lc.mask ∧
    ∀ X names,
      design_matrix_all npsin npcos nprad lc harmonics norm
          = some (X, names) →
        X.length = countFalse lc.mask := by
  constructor
  · exact boolIndex_length _ _ (by simp [buildRows, hm])
  · intro X names h
    cases hct : centroidTriple lc with
    | none => rw [design_matrix_all, hct] at h; cases h
    | some trip =>
      obtain ⟨xcv, ycv, bgv⟩ := trip
      rw [design_matrix_all_spec npsin npcos nprad lc harmonics norm
        xcv ycv bgv hct] at h
      simp only [Option.some.injEq, Prod.mk.injEq] at h
      rw [← h.1]
      exact boolIndex_length _ _ (by simp [buildRows, hm])

/-- Witness for C8: the one-sample light curve `lcW1`. -/
theorem C8_design_matrix_row_count_witness :
    (design_matrix id id id lcW1 true).length = countFalse lcW1.mask ∧
    ∀ X names,
      design_matrix_all id id id lcW1 2 true = some (X, names) →
        X.length = countFalse lcW1.mask :=
  C8_design_matrix_row_count id id id lcW1 2 true rfl

lemma mem_of_mem_boolIndex {α : Type} {x : α} {l : List α} {m : List Bool}
    (h : x ∈ boolIndex l m) : x ∈ l := by
  rw [boolIndex] at h
  obtain ⟨⟨a, b⟩, hmem, hx⟩ := List.mem_filterMap.mp h
  cases b
  · simp only [Bool.false_eq_true, if_false, Option.some.injEq] at hx
    exact hx ▸ (List.of_mem_zip hmem).1
  · simp at hx

lemma mem_buildRows {row : List (Option ℚ)} {cols : List (List (Option ℚ))}
    {n : ℕ} (h : row ∈ buildRows cols n) :
    ∃ p, p < n ∧ row = cols.map fun c => c.getD p none := by
  rw [buildRows] at h
  obtain ⟨p, hp, rfl⟩ := List.mem_map.mp h
  exact ⟨p, List.mem_range.mp hp, rfl⟩

lemma onesCol_getD {n p : ℕ} (hp : p < n) :
    ((List.replicate n (1 : ℚ)).map some).getD p none = some 1 := by
  have hlt : p < ((List.replicate n (1 : ℚ)).map some).length := by
    simpa using hp
  rw [List.getD_eq_getElem _ _ hlt, List.getElem_map, List.getElem_replicate]

/-- C10, confirmed: in both design-matrix builders the constant column is a
plain vector of ones that never passes through `normalize`, whatever the
normalization flag: every returned row carries exactly `some 1` (never a
NaN) at the constant column's index — index 2 in `design_matrix`, index 0
in `design_matrix_all`. -/
theorem C10_ones_column_never_normalized (npsin npcos nprad : ℚ → ℚ)
    (lc : LC) (harmonics : ℕ) (norm : Bool) :
    (∀ row ∈ design_matrix npsin npcos nprad lc norm,
        row.getD 2 none = some 1) ∧
    (∀ X names,
        design_matrix_all npsin npcos nprad lc harmonics norm
            = some (X, names) →
          ∀ row ∈ X, row.getD 0 none = some 1) := by
  constructor
  · intro row hrow
    simp only [design_matrix] at hrow
    obtain ⟨p, hp, rfl⟩ := mem_buildRows (mem_of_mem_boolIndex hrow)
    simp only [List.cons_append, List.nil_append, List.map_cons,
      List.getD_cons_succ, List.getD_cons_zero]
    exact onesCol_getD hp
  · intro X names h
    cases hct : centroidTriple lc with
    | none => rw [design_matrix_all, hct] at h; cases h
    | some trip =>
      obtain ⟨xcv, ycv, bgv⟩ := trip
      rw [design_matrix_all_spec npsin npcos nprad lc harmonics norm
        xcv ycv bgv hct] at h
      simp only [Option.some.injEq, Prod.mk.injEq] at h
      intro row hrow
      rw [← h.1] at hrow
      obtain ⟨p, hp, rfl⟩ := mem_buildRows (mem_of_mem_boolIndex hrow)
      simp only [allCols, List.map_cons, List.getD_cons_zero]
      exact onesCol_getD hp

/-- Witness for C10: the constant column of both builders on `lcW3`. -/
theorem C10_ones_column_never_normalized_witness :
    (([some 0, some 0, some 1] : List (Option ℚ)).getD 2 none = some 1) ∧
    (((allCols id id id lcW3 [0] [0] [0] 0 false).map
        fun c => c.getD (0 : ℕ) none).getD 0 none = some 1) := by
  constructor
  · refine (C10_ones_column_never_normalized id id id lcW3 0 false).1 _ ?_
    have : design_matrix id id id lcW3 false = [[some 0, some 0, some 1]] := by
      simp [design_matrix, buildRows, boolIndex, lcW3, normCol,
        List.range_succ]
    rw [this]
    simp
  · refine (C10_ones_column_never_normalized id id id lcW3 0 false).2 _
      (allNames lcW3 0)
      (design_matrix_all_spec id id id lcW3 0 false [0] [0] [0] rfl) _ ?_
    simp [buildRows, boolIndex, lcW3, List.range_succ]

lemma length_flatten_map {ι α : Type} (g : ι → List α) (k : ℕ)
    (hg : ∀ i, (g i).length = k) :
    ∀ l : List ι, ((l.map g).flatten).length = l.length * k
  | [] => by simp
  | x :: xs => by
    simp only [List.map_cons, List.flatten_cons, List.length_append, hg x,
      length_flatten_map g k hg xs, List.length_cons]
    ring

/-- C6, corrected: when the centroid triple resolves, `design_matrix_all`
returns the columns in the fixed order — constant ones column; for each
harmonic index `1..H` sine then cosine of `index × roll angle`; centroid
`x`, `y`, `x²`, `y²`, `x·y` and background; then the contamination/smearing
pair *when both vectors exist*; then — independently, not as an
`else`-alternative — the `u1`/`u2` pair when both exist; then the extra
basis vectors — with the ordered name list matching this column order, of
equal length.  (The claim's "else" is the one correction: the two optional
groups come from two independent `try` blocks, so a light curve carrying
contamination, smearing, `u1` and `u2` gets *both* groups.) -/
theorem C6_design_matrix_all_order (npsin npcos nprad : ℚ → ℚ) (lc : LC)
    (harmonics : ℕ) (norm : Bool) (xcv ycv bgv : List ℚ)
    (hct : centroidTriple lc = some (xcv, ycv, bgv)) :
    design_matrix_all npsin npcos nprad lc harmonics norm
      = some (boolIndex (buildRows
          (allCols npsin npcos nprad lc xcv ycv bgv harmonics norm)
          lc.bjd_time.length) lc.mask,
        allNames lc harmonics) ∧
    (allNames lc harmonics).length
      = (allCols npsin npcos nprad lc xcv ycv bgv harmonics norm).length := by
  refine ⟨design_matrix_all_spec _ _ _ _ _ _ _ _ _ hct, ?_⟩
  have h1 : (((List.range harmonics).map
      (harmCols npsin npcos nprad lc.roll_angle norm)).flatten).length
      = harmonics * 2 := by
    rw [length_flatten_map (harmCols npsin npcos nprad lc.roll_angle norm) 2
      fun i => rfl]
    simp
  have h2 : (((List.range harmonics).map harmNames).flatten).length
      = harmonics * 2 := by
    rw [length_flatten_map harmNames 2 fun i => rfl]
    simp
  obtain ⟨bjd, roll, fl, fe, mk, cx, cy, bgd, xcf, ycf, bgf, clf, smf,
    u1f, u2f, ebvf⟩ := lc
  rcases clf with - | cl <;> rcases smf with - | sl <;>
    rcases u1f with - | u1v <;> rcases u2f with - | u2v <;>
    rcases ebvf with - | ebv <;>
    simp [allCols, allNames, h1, h2]

/-- Witness for C6: the corrected order statement on `lcW3`. -/
theorem C6_design_matrix_all_order_witness :
    design_matrix_all id id id lcW3 1 true
      = some (boolIndex (buildRows
          (allCols id id id lcW3 [0] [0] [0] 1 true)
          lcW3.bjd_time.length) lcW3.mask,
        allNames lcW3 1) ∧
    (allNames lcW3 1).length
      = (allCols id id id lcW3 [0] [0] [0] 1 true).length :=
  C6_design_matrix_all_order id id id lcW3 1 true [0] [0] [0] rfl

/-- C6 counterexample: on a light curve that has contamination, smearing,
`u1` and `u2` vectors, `design_matrix_all` emits *both* optional groups —
the name list contains `contamination`/`smearing` *and* `u1`/`u2` — whereas
the claim's "else if available" demands that `u1`/`u2` be absent whenever
the contamination/smear group is present. -/
theorem C6_design_matrix_all_counterexample :
    Option.map Prod.snd (design_matrix_all id id id lcW4 0 false)
      = some ["ones", "xc", "yc", "x2", "y2", "xy", "bg",
              "contamination", "smearing", "u1", "u2"] := by
  rw [design_matrix_all_spec id id id lcW4 0 false [0] [0] [0] rfl]
  simp [allNames, lcW4]

/-- C9, confirmed: no vocabulary attribute collides with an attribute of a
freshly constructed `JointLightCurve`, so the `hasattr` guard is false for
every vocabulary name and the loop copies nothing: after construction the
vocabulary vectors live only on the contained per-visit light curves. -/
theorem C9_joint_init_copies_no_vocabulary (fieldNames : List String)
    (h : ∀ f ∈ fieldNames, lowerName f ∈ attrs) :
    jointInitCopied fieldNames = [] := by
  have hdisj : ∀ a ∈ attrs, jointLightCurveOwnAttrs.contains a = false := by
    decide
  rw [jointInitCopied]
  refine List.filter_eq_nil_iff.mpr ?_
  intro a ha
  obtain ⟨f, hf, rfl⟩ := List.mem_map.mp ha
  simpa using hdisj _ (h f hf)

/-- Witness for C9: the uppercase FITS field names of a DRP record. -/
theorem C9_joint_init_copies_no_vocabulary_witness :
    jointInitCopied ["FLUX", "BJD_TIME", "ROLL_ANGLE"] = [] :=
  C9_joint_init_copies_no_vocabulary ["FLUX", "BJD_TIME", "ROLL_ANGLE"]
    (by decide)

lemma length_hstackAll (R : ℕ) :
    ∀ (Ms : List (List (List ℚ))), Ms ≠ [] →
      (∀ M ∈ Ms, M.length = R) → (hstackAll Ms).length = R
  | [], h, _ => absurd rfl h
  | [A], _, hall => hall A (by simp)
  | A :: B :: rest, _, hall => by
    have ht := length_hstackAll R (B :: rest) (by simp)
      fun M hM => hall M (List.mem_cons_of_mem _ hM)
    simp only [hstackAll, hstack2, List.length_zipWith, ht,
      hall A (by simp)]
    exact Nat.min_self R

lemma zipWith_append_getD (p : ℕ) :
    ∀ (A B : List (List ℚ)), p < A.length → p < B.length →
      (List.zipWith (· ++ ·) A B).getD p []
        = A.getD p [] ++ B.getD p []
  | [], _, ha, _ => by simp at ha
  | _ :: _, [], _, hb => by simp at hb
  | a :: A, b :: B, ha, hb => by
    cases p with
    | zero => rfl
    | succ q =>
      simp only [List.zipWith_cons_cons, List.getD_cons_succ]
      exact zipWith_append_getD q A B (by simpa using ha) (by simpa using hb)

lemma hstackAll_getD (R p : ℕ) (hp : p < R) :
    ∀ (Ms : List (List (List ℚ))), Ms ≠ [] →
      (∀ M ∈ Ms, M.length = R) →
      (hstackAll Ms).getD p []
        = (Ms.map fun M => M.getD p []).flatten
  | [], h, _ => absurd rfl h
  | [A], _, _ => by simp [hstackAll]
  | A :: B :: rest, _, hall => by
    have ht := hstackAll_getD R p hp (B :: rest) (by simp)
      fun M hM => hall M (List.mem_cons_of_mem _ hM)
    have hlt : p < (hstackAll (B :: rest)).length := by
      rw [length_hstackAll R (B :: rest) (by simp)
        fun M hM => hall M (List.mem_cons_of_mem _ hM)]
      exact hp
    rw [show hstackAll (A :: B :: rest) = hstack2 A (hstackAll (B :: rest))
        from rfl, hstack2,
      zipWith_append_getD p A _ (by rw [hall A (by simp)]; exact hp) hlt, ht]
    simp

lemma zeros_getD {r p : ℕ} (c : ℕ) (hp : p < r) :
    (zeros r c).getD p [] = List.replicate c 0 := by
  rw [zeros, List.getD_eq_getElem _ _ (by simpa using hp),
    List.getElem_replicate]

lemma flatten_map_const {g : ℕ → List ℚ} {c : ℕ} :
    ∀ (l : List ℕ), (∀ j ∈ l, g j = List.replicate c 0) →
      ((l.map g).flatten) = List.replicate (l.length * c) 0
  | [], _ => by simp
  | x :: xs, h => by
    simp only [List.map_cons, List.flatten_cons, h x (by simp),
      flatten_map_const xs fun j hj => h j (List.mem_cons_of_mem _ hj),
      List.length_cons, Nat.succ_mul, Nat.add_comm]
    rw [← List.replicate_add]

lemma offs_mono (rs : List ℕ) {j i : ℕ} (h : j ≤ i) :
    (rs.take j).sum ≤ (rs.take i).sum := by
  conv_rhs => rw [← List.take_append_drop j (rs.take i)]
  rw [List.sum_append, List.take_take, Nat.min_eq_left h]
  exact Nat.le_add_right _ _

lemma offs_succ (rs : List ℕ) {j : ℕ} (hj : j < rs.length) :
    (rs.take (j + 1)).sum = (rs.take j).sum + rs.getD j 0 := by
  rw [List.take_succ, List.sum_append, List.getElem?_eq_getElem hj,
    List.getD_eq_getElem rs 0 hj]
  simp

lemma getD_map_length (ds : List (List (List ℚ))) :
    ∀ (i : ℕ), (ds.map List.length).getD i 0 = (ds.getD i []).length := by
  induction ds with
  | nil => intro i; simp
  | cons M rest ih =>
    intro i
    cases i with
    | zero => simp
    | succ j => simpa using ih j

lemma sum_partition (rs : List ℕ) :
    ∀ p, p < rs.sum → ∃ i, i < rs.length ∧ ∃ a, a < rs.getD i 0 ∧
      p = (rs.take i).sum + a := by
  induction rs with
  | nil => simp
  | cons r rest ih =>
    intro p hp
    by_cases h : p < r
    · exact ⟨0, by simp, p, by simpa using h, by simp⟩
    · obtain ⟨i, hi, a, ha, hpe⟩ := ih (p - r)
        (by simp only [List.sum_cons] at hp; omega)
      refine ⟨i + 1, by simpa using hi, a, by simpa using ha, ?_⟩
      simp only [List.take_succ_cons, List.sum_cons]
      omega

lemma pad_getD_lt {pre p : ℕ} (post c : ℕ) (M : List (List ℚ))
    (hp : p < pre) :
    (zeros pre c ++ M ++ zeros post c).getD p [] = List.replicate c 0 := by
  rw [List.append_assoc,
    List.getD_append _ _ _ _ (by simpa [zeros] using hp), zeros_getD c hp]

lemma pad_getD_mid {pre p : ℕ} (post c : ℕ) (M : List (List ℚ))
    (h1 : pre ≤ p) (h2 : p < pre + M.length) :
    (zeros pre c ++ M ++ zeros post c).getD p [] = M.getD (p - pre) [] := by
  rw [List.append_assoc,
    List.getD_append_right _ _ _ _ (by simpa [zeros] using h1),
    List.getD_append _ _ _ _ ?_]
  · congr 1
    simp [zeros]
  · simp only [zeros, List.length_replicate]
    omega

lemma pad_getD_ge {pre p : ℕ} {post : ℕ} (c : ℕ) (M : List (List ℚ))
    (h1 : pre + M.length ≤ p) (h2 : p < pre + M.length + post) :
    (zeros pre c ++ M ++ zeros post c).getD p [] = List.replicate c 0 := by
  have hz : (zeros pre c).length = pre := by simp [zeros]
  rw [List.append_assoc, List.getD_append_right _ _ _ _ (by omega),
    List.getD_append_right _ _ _ _ (by rw [hz]; omega), hz,
    zeros_getD c (by omega)]

lemma flatten_range_blocks (g : ℕ → List ℚ) (c N i : ℕ) (hi : i < N)
    (w : List ℚ)
    (hlt : ∀ j, j < i → g j = List.replicate c 0)
    (heq : g i = w)
    (hgt : ∀ j, i < j → j < N → g j = List.replicate c 0) :
    ((List.range N).map g).flatten
      = List.replicate (i * c) 0 ++ w
          ++ List.replicate ((N - 1 - i) * c) 0 := by
  have hsplit : List.range N
      = List.range i ++ (List.range (N - i)).map (i + ·) := by
    conv_lhs => rw [show N = i + (N - i) from by omega]
    exact List.range_add i (N - i)
  have hsucc : List.range (N - i)
      = 0 :: (List.range (N - i - 1)).map Nat.succ := by
    conv_lhs => rw [show N - i = (N - i - 1) + 1 from by omega]
    exact List.range_succ_eq_map _
  rw [hsplit, hsucc]
  simp only [List.map_append, List.map_cons, List.flatten_append,
    List.flatten_cons]
  rw [flatten_map_const (List.range i)
      fun j hj => hlt j (List.mem_range.mp hj),
    flatten_map_const (((List.range (N - i - 1)).map Nat.succ).map (i + ·))
      ?_]
  · simp only [List.length_range, List.length_map, Nat.add_zero, heq]
    rw [show N - i - 1 = N - 1 - i from by omega, List.append_assoc]
  · intro j hj
    obtain ⟨y, hy, rfl⟩ := List.mem_map.mp hj
    obtain ⟨x, hx, rfl⟩ := List.mem_map.mp hy
    have hxr := List.mem_range.mp hx
    exact hgt (i + Nat.succ x) (by omega) (by omega)

/-- C4, confirmed: for per-visit design matrices whose row counts match the
visits' unmasked counts (`_pad_shapes`) and which share column count `c`,
the combined matrix has `sum r_i` rows of width `N·c`; the row at offset
`sum(r_0..i-1) + a` is `i·c` zeros, then row `a` of visit `i`'s matrix,
then `(N-1-i)·c` zeros — block `i` occupies exactly rows
`[sum(r_0..i-1), sum(r_0..i))` and columns `[i·c, (i+1)·c)` and every entry
outside the blocks is zero — and every row index belongs to exactly such a
block. -/
theorem C4_combined_design_matrix_blocks (lcs : List LC)
    (ds : List (List (List ℚ))) (c : ℕ)
    (hne : ds ≠ []) (h0 : ds.headD [] ≠ [])
    (hshape : _pad_shapes lcs = ds.map List.length)
    (hw : ∀ M ∈ ds, ∀ row ∈ M, row.length = c) :
    (combined_design_matrix lcs ds).length = (ds.map List.length).sum ∧
    (∀ i, i < ds.length → ∀ a, a < (ds.getD i []).length →
      (combined_design_matrix lcs ds).getD
          (((ds.map List.length).take i).sum + a) []
        = List.replicate (i * c) 0 ++ (ds.getD i []).getD a []
            ++ List.replicate ((ds.length - 1 - i) * c) 0) ∧
    (∀ p, p < (ds.map List.length).sum →
      ∃ i, i < ds.length ∧ ∃ a, a < (ds.getD i []).length ∧
        p = ((ds.map List.length).take i).sum + a) ∧
    (∀ p, p < (ds.map List.length).sum →
      ((combined_design_matrix lcs ds).getD p []).length
        = ds.length * c) := by
  have h1 : ds.headD [] ∈ ds := by
    cases ds with
    | nil => exact absurd rfl hne
    | cons M rest => simp
  have h2 : (ds.headD []).headD [] ∈ ds.headD [] := by
    cases hM : ds.headD [] with
    | nil => exact absurd hM h0
    | cons r rest => simp
  have hndim : ((ds.headD []).headD []).length = c := hw _ h1 _ h2
  have hrslen : (ds.map List.length).length = ds.length := by simp
  have hsum3 : ∀ i, i < ds.length →
      ((ds.map List.length).take i).sum + (ds.getD i []).length
        + ((ds.map List.length).drop (i + 1)).sum
        = (ds.map List.length).sum := by
    intro i hi
    have ha : ((ds.map List.length).take (i + 1)).sum
        + ((ds.map List.length).drop (i + 1)).sum
        = (ds.map List.length).sum := by
      rw [← List.sum_append, List.take_append_drop]
    have hb := offs_succ (ds.map List.length)
      (show i < (ds.map List.length).length by omega)
    rw [getD_map_length ds i] at hb
    omega
  have hpadlen : ∀ M ∈ (List.range ds.length).map (fun i =>
      zeros (((ds.map List.length).take i).sum) c ++ ds.getD i []
        ++ zeros (((ds.map List.length).drop (i + 1)).sum) c),
      M.length = (ds.map List.length).sum := by
    intro M hM
    obtain ⟨i, hir, rfl⟩ := List.mem_map.mp hM
    have hi := List.mem_range.mp hir
    simp only [List.length_append, zeros, List.length_replicate]
    have := hsum3 i hi
    omega
  have hpadsne : (List.range ds.length).map (fun i =>
      zeros (((ds.map List.length).take i).sum) c ++ ds.getD i []
        ++ zeros (((ds.map List.length).drop (i + 1)).sum) c) ≠ [] := by
    have := List.length_pos.mpr hne
    simp only [ne_eq, List.map_eq_nil_iff, List.range_eq_nil]
    omega
  have hcdm : combined_design_matrix lcs ds
      = hstackAll ((List.range ds.length).map fun i =>
          zeros (((ds.map List.length).take i).sum) c ++ ds.getD i []
            ++ zeros (((ds.map List.length).drop (i + 1)).sum) c) := by
    simp only [combined_design_matrix]
    rw [hshape, hndim]
  have hlen : (combined_design_matrix lcs ds).length
      = (ds.map List.length).sum := by
    rw [hcdm]
    exact length_hstackAll _ _ hpadsne hpadlen
  have hrow : ∀ i, i < ds.length → ∀ a, a < (ds.getD i []).length →
      (combined_design_matrix lcs ds).getD
          (((ds.map List.length).take i).sum + a) []
        = List.replicate (i * c) 0 ++ (ds.getD i []).getD a []
            ++ List.replicate ((ds.length - 1 - i) * c) 0 := by
    intro i hi a ha
    have hpR : ((ds.map List.length).take i).sum + a
        < (ds.map List.length).sum := by
      have := hsum3 i hi
      omega
    rw [hcdm, hstackAll_getD _ _ hpR _ hpadsne hpadlen, List.map_map]
    refine flatten_range_blocks _ c ds.length i hi _ ?_ ?_ ?_
    · intro j hj
      simp only [Function.comp_apply]
      apply pad_getD_ge
      · have hsj := offs_succ (ds.map List.length)
          (show j < (ds.map List.length).length by omega)
        rw [getD_map_length ds j] at hsj
        have hmono := offs_mono (ds.map List.length)
          (show j + 1 ≤ i from hj)
        omega
      · have := hsum3 j (by omega)
        omega
    · simp only [Function.comp_apply]
      rw [pad_getD_mid _ c _ (Nat.le_add_right _ _) (by omega),
        Nat.add_sub_cancel_left]
    · intro j hji hjN
      simp only [Function.comp_apply]
      apply pad_getD_lt
      have hsi := offs_succ (ds.map List.length)
        (show i < (ds.map List.length).length by omega)
      rw [getD_map_length ds i] at hsi
      have hmono := offs_mono (ds.map List.length)
        (show i + 1 ≤ j from hji)
      omega
  have hpart : ∀ p, p < (ds.map List.length).sum →
      ∃ i, i < ds.length ∧ ∃ a, a < (ds.getD i []).length ∧
        p = ((ds.map List.length).take i).sum + a := by
    intro p hp
    obtain ⟨i, hi, a, ha, hpe⟩ := sum_partition (ds.map List.length) p hp
    rw [hrslen] at hi
    rw [getD_map_length ds i] at ha
    exact ⟨i, hi, a, ha, hpe⟩
  refine ⟨hlen, hrow, hpart, ?_⟩
  intro p hp
  obtain ⟨i, hi, a, ha, rfl⟩ := hpart p hp
  rw [hrow i hi a ha]
  have hMc : ((ds.getD i []).getD a []).length = c := by
    have hm1 : ds.getD i [] ∈ ds := by
      rw [List.getD_eq_getElem _ _ (by omega)]
      exact List.getElem_mem _
    have hm2 : (ds.getD i []).getD a [] ∈ ds.getD i [] := by
      rw [List.getD_eq_getElem _ _ ha]
      exact List.getElem_mem _
    exact hw _ hm1 _ hm2
  simp only [List.length_append, List.length_replicate, hMc]
  conv_rhs => rw [show ds.length = i + 1 + (ds.length - 1 - i) from by omega]
  ring

/-- Witness for C4: with unmasked counts 1 and 2 and column count 2, the
combined matrix is 3×4 with the two blocks on the diagonal and zeros
elsewhere. -/
theorem C4_combined_design_matrix_blocks_witness :
    (combined_design_matrix [lcW1, lcW5] dsW).length = 3 ∧
    (combined_design_matrix [lcW1, lcW5] dsW).getD 0 [] = [1, 2, 0, 0] ∧
    (combined_design_matrix [lcW1, lcW5] dsW).getD 1 [] = [0, 0, 3, 4] ∧
    (combined_design_matrix [lcW1, lcW5] dsW).getD 2 [] = [0, 0, 5, 6] := by
  obtain ⟨hl, hr, -, -⟩ := C4_combined_design_matrix_blocks [lcW1, lcW5]
    dsW 2 (by simp [dsW]) (by simp [dsW]) (by rfl)
    (by intro M hM; fin_cases hM <;> intro row hrow <;> fin_cases hrow <;>
      rfl)
  refine ⟨by simpa [dsW] using hl, ?_, ?_, ?_⟩
  · have h := hr 0 (by simp [dsW]) 0 (by simp [dsW])
    simpa [dsW] using h
  · have h := hr 1 (by simp [dsW]) 0 (by simp [dsW])
    simpa [dsW] using h
  · have h := hr 1 (by simp [dsW]) 1 (by simp [dsW])
    simpa [dsW] using h

end Linea
